import Mathlib

/-!
Verification of the audio-to-text pipeline of the NeMo ASR transcription
service (`app/utils.py`, `app/inference.py`, `app/main.py`).

The Python functions are shallowly embedded as Lean functions:

* token maps (Python `dict[int, str]`) become insertion-ordered association
  lists `List (Int × String)` with unique keys, looked up by `List.lookup`;
* `decode_tokens` becomes `decode_tokens` below (greedy CTC collapse);
* the line parsing of `load_token_map` becomes `parse_token_line` and
  `load_token_map_lines` over the list of lines of the file;
* `validate_audio` becomes `validate_audio` over an optional sample count
  (`none` models a file librosa fails to load, making the `except` branch
  return `False`); durations are exact rationals `samples / 16000`;
* `ASRInference._post_process_text` becomes `post_process_text`;
* the `/transcribe` endpoint's validate-then-transcribe sequencing becomes
  `transcribe_endpoint`, parametrised by the downstream stages so that
  "the downstream stages never run on rejected input" is expressible as
  independence from those parameters.
-/

/-! ## CTC decoding (`decode_tokens`, app/utils.py lines 140-191) -/

/-- Blank id as computed by the source:
`max(token_map.keys()) if token_map else 128`. -/
def blank_token_id (m : List (Int × String)) : Int :=
  match m with
  | [] => 128
  | p :: ps => ps.foldl (fun a q => max a q.1) p.1

/-- Python `''.join` on a list of strings: concatenation with no separator. -/
def strJoin : List String → String
  | [] => ""
  | s :: rest => s ++ strJoin rest

/-- The decoding loop of `decode_tokens`: walk the frame ids in order with
state `prev` (Python `prev_token`), collecting emitted token strings
(Python `decoded_tokens`). -/
def ctcLoop (m : List (Int × String)) (blank : Int) :
    List Int → Option Int → List String
  | [], _ => []
  | i :: rest, prev =>
    if i = blank then ctcLoop m blank rest none
    else if some i = prev then ctcLoop m blank rest prev
    else
      match List.lookup i m with
      | some tok => tok :: ctcLoop m blank rest (some i)
      | none => ctcLoop m blank rest (some i)

/-- `decode_tokens(token_ids, token_map)`: empty map returns `""`
immediately; otherwise greedy CTC collapse with the blank id derived by
`blank_token_id`, emitted tokens joined with no separator. -/
def decode_tokens (ids : List Int) (m : List (Int × String)) : String :=
  if m.length = 0 then ""
  else strJoin (ctcLoop m (blank_token_id m) ids none)

/-! ### Spec-side decoder (for the refinement claim C1)

Modelled from the spec's words in §4.3: maintain `previous = None`; for each
frame id in temporal order, a blank resets `previous` and emits nothing, a
repeat of `previous` is skipped, otherwise the token string is appended to
the output exactly when the id is present in the table and `previous` is set
to the id; the output is the accumulated string. -/

/-- One step of the spec's CTC collapse, state = (output so far, previous). -/
def ctc_spec_step (m : List (Int × String)) (blank : Int)
    (st : String × Option Int) (i : Int) : String × Option Int :=
  if i = blank then (st.1, none)
  else if st.2 = some i then st
  else
    match List.lookup i m with
    | some tok => (st.1 ++ tok, some i)
    | none => (st.1, some i)

/-- The spec's decoder: fold the step over the frames starting from the empty
output and `previous = None`. -/
def ctc_spec_decode (ids : List Int) (m : List (Int × String)) : String :=
  (ids.foldl (ctc_spec_step m (blank_token_id m)) ("", none)).1

/-! ## Whitespace and Python string primitives

`isWs` is Python's default whitespace set for `str.strip()` / `str.split()`
restricted to ASCII (space, tab, newline, carriage return, vertical tab,
form feed); the service's decoded token strings only contain ASCII
whitespace, so the Unicode extension of Python's rules is not modelled. -/

/-- ASCII whitespace, as recognised by Python `str.strip()`/`str.split()`. -/
def isWs (c : Char) : Bool :=
  c.toNat = 32 || c.toNat = 9 || c.toNat = 10 ||
    c.toNat = 13 || c.toNat = 11 || c.toNat = 12

/-- Python `str.strip()` on a character list: drop whitespace from both
ends. -/
def pyStripL (cs : List Char) : List Char :=
  ((cs.dropWhile isWs).reverse.dropWhile isWs).reverse

/-- Python `str.split()` with no separator: split on runs of whitespace,
producing no empty words. `acc` is the current word, reversed. -/
def wordsAux : List Char → List Char → List (List Char)
  | [], [] => []
  | [], acc => [acc.reverse]
  | c :: cs, acc =>
    if isWs c then
      match acc with
      | [] => wordsAux cs []
      | _ :: _ => acc.reverse :: wordsAux cs []
    else wordsAux cs (c :: acc)

/-- Python `' '.join` on a list of words as character lists. -/
def joinSepChars : List (List Char) → List Char
  | [] => []
  | [w] => w
  | w :: v :: ws => w ++ ' ' :: joinSepChars (v :: ws)

/-! ## Post-processing (`ASRInference._post_process_text`,
app/inference.py lines 114-121) -/

/-- `_post_process_text`: `text = ' '.join(text.split())`; if
`text.strip()` is empty return the sentinel, else return `text.strip()`. -/
def post_process_text (text : String) : String :=
  let joined : List Char := joinSepChars (wordsAux text.toList [])
  if pyStripL joined = [] then "[No speech detected]"
  else String.mk (pyStripL joined)

/-! ### Spec-side whitespace normalisation (for claim C8)

Modelled from the spec's words in §4.5: "whitespace-normalize (collapse
runs of whitespace to single spaces, trim ends)". A left-to-right scan:
`started` records whether a word character has been emitted, `pending`
whether whitespace has been seen since the last word character; a run of
whitespace contributes a single `' '` exactly when it separates two word
characters. -/

/-- One-pass collapse of whitespace runs with trimming at both ends. -/
def collapseWsAux : List Char → Bool → Bool → List Char
  | [], _, _ => []
  | c :: cs, started, pending =>
    if isWs c then collapseWsAux cs started true
    else if started && pending then ' ' :: c :: collapseWsAux cs true false
    else c :: collapseWsAux cs true false

/-- The spec's whitespace normalisation of a string. -/
def collapseWs (s : String) : String :=
  String.mk (collapseWsAux s.toList false false)

/-! ## Duration validation (`validate_audio`, app/utils.py lines 15-45)

The audio loading boundary is abstracted to an `Option Nat`: `some n` is a
waveform that librosa decoded to `n` samples at the forced 16000 Hz sample
rate, `none` is a file whose load raised (the `except` branch of the
source, which logs and returns `False`). `librosa.get_duration(y, sr)` is
`len(y) / sr`, modelled as an exact rational. -/

/-- Duration in seconds of `n` samples at 16000 Hz. -/
def audio_duration (n : Nat) : ℚ := (n : ℚ) / 16000

/-- `validate_audio`: `True` iff the file loads and
`5.0 <= duration <= 10.0`; a load failure returns `False`. -/
def validate_audio (loaded : Option Nat) : Bool :=
  match loaded with
  | none => false
  | some n => decide (5 ≤ audio_duration n ∧ audio_duration n ≤ 10)

/-! ## The `/transcribe` endpoint orchestration (app/main.py lines 120-129,
app/inference.py lines 78-112)

After the upload checks, `main.transcribe` runs `validate_audio` and raises
HTTP 400 "Audio duration must be between 5-10 seconds" when it returns
`False`; only otherwise does it call `transcribe_audio`, which runs
`preprocess_audio` (feature extraction) → `_run_inference` → argmax →
`decode_tokens` → `_post_process_text`. The downstream stages are
parameters here, so that a rejected request provably never depends on
them. The `none`-and-valid branch is unreachable (`validate_audio none =
false`); it is given the endpoint's 500 message for definiteness. -/

/-- The endpoint's validate-then-transcribe sequencing. `extract` stands
for `preprocess_audio`, `infer` for the ONNX call plus argmax, and
`decodeStage` for `decode_tokens` with the loaded token map. -/
def transcribe_endpoint {α β : Type} (extract : Nat → α) (infer : α → β)
    (decodeStage : β → String) (audio : Option Nat) : Except String String :=
  if validate_audio audio = true then
    match audio with
    | some n => Except.ok (post_process_text (decodeStage (infer (extract n))))
    | none => Except.error "Internal server error during transcription"
  else Except.error "Audio duration must be between 5-10 seconds"

/-! ## Vocabulary loading (`load_token_map`, app/utils.py lines 104-138)

The file is abstracted to its list of lines. For each line the source does
`line = line.strip()`; skips empty lines; `parts = line.split(' ', 1)`;
requires exactly two parts; and stores `token_map[int(idx)] = token`,
skipping the line when `int` raises `ValueError`. Python `int(s)` is
modelled for ASCII digit strings: surrounding whitespace, one optional
sign, then a non-empty digit sequence in which single underscores may
appear between digits (Unicode digits are not modelled; the repository's
vocabulary files are ASCII-indexed). -/

/-- Decimal value of an ASCII digit. -/
def digitVal (c : Char) : Option Nat :=
  if 48 ≤ c.toNat ∧ c.toNat ≤ 57 then some (c.toNat - 48) else none

/-- Digits after the first: underscores allowed only between digits. -/
def pyDigits : List Char → Nat → Option Nat
  | [], acc => some acc
  | c :: cs, acc =>
    if c = '_' then
      match cs with
      | c2 :: cs2 =>
        match digitVal c2 with
        | some d => pyDigits cs2 (acc * 10 + d)
        | none => none
      | [] => none
    else
      match digitVal c with
      | some d => pyDigits cs (acc * 10 + d)
      | none => none

/-- A non-empty unsigned decimal literal. -/
def pyIntNat : List Char → Option Nat
  | [] => none
  | c :: cs =>
    match digitVal c with
    | some d => pyDigits cs d
    | none => none

/-- Python `int(s)` on ASCII input: strip, optional sign, digits. -/
def pyInt (s : String) : Option Int :=
  match pyStripL s.toList with
  | '+' :: rest => (pyIntNat rest).map (fun n => (n : Int))
  | '-' :: rest => (pyIntNat rest).map (fun n => -(n : Int))
  | cs => (pyIntNat cs).map (fun n => (n : Int))

/-- Python `s.split(' ', 1)`: the part before the first space character and,
when a space exists, the untouched remainder. -/
def splitFirstSpace : List Char → List Char × Option (List Char)
  | [] => ([], none)
  | c :: cs =>
    if c = ' ' then ([], some cs)
    else
      let r := splitFirstSpace cs
      (c :: r.1, r.2)

/-- One line of `load_token_map`: `some (index, token)` exactly when the
source stores an entry for the line. -/
def parse_token_line (line : String) : Option (Int × String) :=
  let l := pyStripL line.toList
  if l = [] then none
  else
    match splitFirstSpace l with
    | (_, none) => none
    | (tok, some rest) =>
      match pyInt (String.mk rest) with
      | some n => some (n, String.mk tok)
      | none => none

/-- Python `dict` insertion on an insertion-ordered association list:
overwrite in place when the key exists, else append. -/
def dictInsert (m : List (Int × String)) (k : Int) (v : String) :
    List (Int × String) :=
  if m.any (fun p => p.1 = k) then
    m.map (fun p => if p.1 = k then (k, v) else p)
  else m ++ [(k, v)]

/-- `load_token_map` over the lines of the vocabulary file. -/
def load_token_map_lines (lines : List String) : List (Int × String) :=
  lines.foldl
    (fun m line =>
      match parse_token_line line with
      | some kv => dictInsert m kv.1 kv.2
      | none => m) []

/-- The indices of the lines the source parses successfully, in order. -/
def parsed_keys (lines : List String) : List Int :=
  (lines.filterMap parse_token_line).map Prod.fst

/-! ### Decoder lemmas -/

theorem strJoin_cons (s : String) (l : List String) :
    strJoin (s :: l) = s ++ strJoin l := rfl

theorem ctc_foldl_eq_ctcLoop (m : List (Int × String)) (blank : Int)
    (ids : List Int) :
    ∀ (acc : String) (prev : Option Int),
      (ids.foldl (ctc_spec_step m blank) (acc, prev)).1 =
        acc ++ strJoin (ctcLoop m blank ids prev) := by
  induction ids with
  | nil =>
    intro acc prev
    simp [ctcLoop, strJoin]
  | cons i rest ih =>
    intro acc prev
    by_cases hb : i = blank
    · simp [List.foldl_cons, ctc_spec_step, ctcLoop, hb, ih]
    · by_cases hp : prev = some i
      · subst hp
        simp [List.foldl_cons, ctc_spec_step, ctcLoop, hb, ih]
      · have hp' : ¬ (some i = prev) := fun h => hp h.symm
        cases hlook : List.lookup i m with
        | some tok =>
          simp [List.foldl_cons, ctc_spec_step, ctcLoop, hb, hp, hp', hlook,
            ih, strJoin_cons, String.append_assoc]
        | none =>
          simp [List.foldl_cons, ctc_spec_step, ctcLoop, hb, hp, hp', hlook, ih]

theorem foldl_max_key_mem (l : List (Int × String)) :
    ∀ a : Int, l.foldl (fun x q => max x q.1) a = a ∨
      l.foldl (fun x q => max x q.1) a ∈ l.map Prod.fst := by
  induction l with
  | nil => intro a; left; rfl
  | cons q qs ih =>
    intro a
    simp only [List.foldl_cons, List.map_cons, List.mem_cons]
    rcases ih (max a q.1) with h | h
    · rcases max_choice a q.1 with hm | hm
      · left; rw [h, hm]
      · right; left; rw [h, hm]
    · right; right; exact h

theorem foldl_max_key_ge (l : List (Int × String)) :
    ∀ a : Int, a ≤ l.foldl (fun x q => max x q.1) a ∧
      ∀ k ∈ l.map Prod.fst, k ≤ l.foldl (fun x q => max x q.1) a := by
  induction l with
  | nil => intro a; exact ⟨le_refl a, by simp⟩
  | cons q qs ih =>
    intro a
    simp only [List.foldl_cons, List.map_cons, List.mem_cons]
    have h1 := (ih (max a q.1)).1
    refine ⟨le_trans (le_max_left a q.1) h1, ?_⟩
    intro k hk
    rcases hk with hk | hk
    · subst hk; exact le_trans (le_max_right a q.1) h1
    · exact (ih (max a q.1)).2 k hk

theorem blank_token_id_mem (m : List (Int × String)) (h : m ≠ []) :
    blank_token_id m ∈ m.map Prod.fst := by
  match m with
  | [] => exact absurd rfl h
  | p :: ps =>
    simp only [blank_token_id, List.map_cons, List.mem_cons]
    rcases foldl_max_key_mem ps p.1 with h1 | h1
    · left; exact h1
    · right; exact h1

theorem blank_token_id_ge (m : List (Int × String)) :
    ∀ k ∈ m.map Prod.fst, k ≤ blank_token_id m := by
  match m with
  | [] => simp
  | p :: ps =>
    intro k hk
    simp only [List.map_cons, List.mem_cons] at hk
    simp only [blank_token_id]
    rcases hk with hk | hk
    · subst hk; exact (foldl_max_key_ge ps p.1).1
    · exact (foldl_max_key_ge ps p.1).2 k hk

/-- C1: with a non-empty vocabulary table, `decode_tokens` is exactly the
spec's greedy CTC collapse (`ctc_spec_decode`), and the blank id it uses is
the maximum id present in the table: a member of the key set that bounds
every key. -/
theorem decode_tokens_refines_spec (m : List (Int × String)) (ids : List Int)
    (h : m ≠ []) :
    decode_tokens ids m = ctc_spec_decode ids m ∧
      blank_token_id m ∈ m.map Prod.fst ∧
      ∀ k ∈ m.map Prod.fst, k ≤ blank_token_id m := by
  refine ⟨?_, blank_token_id_mem m h, blank_token_id_ge m⟩
  have hlen : ¬ (m.length = 0) := by
    cases m with
    | nil => exact absurd rfl h
    | cons p ps => simp
  rw [decode_tokens, if_neg hlen, ctc_spec_decode,
    ctc_foldl_eq_ctcLoop m (blank_token_id m) ids "" none]
  exact (String.empty_append _).symm

/-- Witness for C1 at a concrete table and frame sequence. -/
theorem decode_tokens_refines_spec_witness :
    ([(0, "a"), (3, "bc"), (1, "")] : List (Int × String)) ≠ [] ∧
      decode_tokens [0, 0, 1, 2, 3, 0] [(0, "a"), (3, "bc"), (1, "")] =
        ctc_spec_decode [0, 0, 1, 2, 3, 0] [(0, "a"), (3, "bc"), (1, "")] ∧
      blank_token_id [(0, "a"), (3, "bc"), (1, "")] ∈
        ([(0, "a"), (3, "bc"), (1, "")].map Prod.fst : List Int) ∧
      ∀ k ∈ ([(0, "a"), (3, "bc"), (1, "")].map Prod.fst : List Int),
        k ≤ blank_token_id [(0, "a"), (3, "bc"), (1, "")] :=
  ⟨by decide,
    decode_tokens_refines_spec [(0, "a"), (3, "bc"), (1, "")]
      [0, 0, 1, 2, 3, 0] (by decide)⟩

/-- C5 counterexample: the source derives the blank id from the table
(`max(token_map.keys())`), so with table `{5: "अ", 2: "ब"}` the blank id is
5, not 7: frame 5 is treated as blank, frame 7 is an unmapped non-blank id,
and the decode of `[5, 5, 2, 2, 2, 7, 7]` is `"ब"`, not `"अब"`. -/
theorem decode_example_counterexample :
    decode_tokens [5, 5, 2, 2, 2, 7, 7] [(5, "अ"), (2, "ब")] = "ब" ∧
      ("ब" : String) ≠ "अब" := by
  constructor
  · rfl
  · decide

/-- C5 amended: once the vocabulary table also contains its blank entry at
id 7 — making the blank-id-as-max-key convention actually yield 7 — the
frame sequence `[5, 5, 2, 2, 2, 7, 7]` decodes to `"अब"`. -/
theorem decode_example_amended :
    blank_token_id [(5, "अ"), (2, "ब"), (7, "<blk>")] = 7 ∧
      decode_tokens [5, 5, 2, 2, 2, 7, 7] [(5, "अ"), (2, "ब"), (7, "<blk>")] =
        "अब" := by
  constructor
  · rfl
  · rfl

/-- C7: with an empty vocabulary table, `decode_tokens` returns the empty
string for every input sequence. -/
theorem decode_tokens_empty_map (ids : List Int) :
    decode_tokens ids [] = "" := rfl

theorem ctcLoop_collapsed (m : List (Int × String)) (blank : Int) :
    ∀ (ids : List Int) (prev : Option Int),
      blank ∉ ids → List.Chain' (fun a b => a ≠ b) ids →
      (∀ i, ids.head? = some i → prev ≠ some i) →
      ctcLoop m blank ids prev = ids.filterMap (fun i => List.lookup i m) := by
  intro ids
  induction ids with
  | nil => intro prev _ _ _; rfl
  | cons i rest ih =>
    intro prev hblank hchain hprev
    have hib : ¬ (i = blank) := by
      intro h; exact hblank (by simp [h])
    have hip : ¬ (some i = prev) := by
      intro h
      exact hprev i rfl h.symm
    have hrest_blank : blank ∉ rest := fun h => hblank (List.mem_cons_of_mem _ h)
    have hchain' := List.chain'_cons'.mp hchain
    have hrest_prev : ∀ j, rest.head? = some j → (some i : Option Int) ≠ some j := by
      intro j hj hcontra
      have hij : i = j := by
        injection hcontra
      exact (hchain'.1 j hj) hij
    have hrec := ih (some i) hrest_blank hchain'.2 hrest_prev
    cases hlook : List.lookup i m with
    | some tok => simp [ctcLoop, hib, hip, hlook, hrec]
    | none => simp [ctcLoop, hib, hip, hlook, hrec]

/-- C9: for a non-empty table and a frame sequence with no consecutive
duplicates and no occurrence of the blank id, `decode_tokens` emits one
token per id present in the table, concatenated in order. -/
theorem decode_tokens_already_collapsed (m : List (Int × String))
    (ids : List Int) (h : m ≠ [])
    (hchain : List.Chain' (fun a b => a ≠ b) ids)
    (hblank : blank_token_id m ∉ ids) :
    decode_tokens ids m = strJoin (ids.filterMap (fun i => List.lookup i m)) := by
  have hlen : ¬ (m.length = 0) := by
    cases m with
    | nil => exact absurd rfl h
    | cons p ps => simp
  rw [decode_tokens, if_neg hlen,
    ctcLoop_collapsed m (blank_token_id m) ids none hblank hchain
      (by intro i _ hcontra; exact Option.noConfusion hcontra)]

/-- Witness for C9 at a concrete table and already-collapsed sequence. -/
theorem decode_tokens_already_collapsed_witness :
    ([(0, "x"), (3, "yz")] : List (Int × String)) ≠ [] ∧
      List.Chain' (fun a b => a ≠ b) ([0, 1, 0] : List Int) ∧
      blank_token_id [(0, "x"), (3, "yz")] ∉ ([0, 1, 0] : List Int) ∧
      decode_tokens [0, 1, 0] [(0, "x"), (3, "yz")] =
        strJoin (([0, 1, 0] : List Int).filterMap
          (fun i => List.lookup i [(0, "x"), (3, "yz")])) :=
  ⟨by decide, by simp, by decide,
    decode_tokens_already_collapsed [(0, "x"), (3, "yz")] [0, 1, 0]
      (by decide) (by simp) (by decide)⟩

/-! ### Duration validation and orchestration -/

/-- C3: for every decodable waveform, `validate_audio` accepts exactly when
the duration lies in the closed interval `[5, 10]` seconds; in particular
both boundary durations (5 s = 80000 samples, 10 s = 160000 samples) are
accepted. -/
theorem validate_audio_iff_duration_in_range (n : Nat) :
    (validate_audio (some n) = true ↔
        (5 ≤ audio_duration n ∧ audio_duration n ≤ 10)) ∧
      validate_audio (some 80000) = true ∧
      validate_audio (some 160000) = true := by
  refine ⟨by simp [validate_audio], ?_, ?_⟩
  · simp only [validate_audio, decide_eq_true_eq]
    norm_num [audio_duration]
  · simp only [validate_audio, decide_eq_true_eq]
    norm_num [audio_duration]

/-- C10: `validate_audio` is a total function into `Bool`; a load failure
(the `except` branch) yields `false`, the same observable outcome as an
out-of-range duration. -/
theorem validate_audio_total_on_load_failure :
    validate_audio none = false ∧
      ∀ n : Nat, ¬ (5 ≤ audio_duration n ∧ audio_duration n ≤ 10) →
        validate_audio (some n) = validate_audio none := by
  refine ⟨rfl, ?_⟩
  intro n h
  simp [validate_audio, h]

/-- Witness for C10 at a 12.5-second waveform (200000 samples). -/
theorem validate_audio_total_on_load_failure_witness :
    validate_audio none = false ∧
      validate_audio (some 200000) = validate_audio none :=
  ⟨validate_audio_total_on_load_failure.1,
    validate_audio_total_on_load_failure.2 200000 (by norm_num [audio_duration])⟩

/-- C4: on an input whose duration is outside `[5, 10]` seconds the
endpoint produces the `ValidationError` rejection, and the outcome is the
same for every choice of feature-extraction, inference and decode stages —
the downstream stages are never invoked. -/
theorem transcribe_endpoint_rejects_before_pipeline {α β α2 β2 : Type}
    (n : Nat) (h : ¬ (5 ≤ audio_duration n ∧ audio_duration n ≤ 10))
    (extract : Nat → α) (infer : α → β) (decodeStage : β → String)
    (extract2 : Nat → α2) (infer2 : α2 → β2) (decodeStage2 : β2 → String) :
    transcribe_endpoint extract infer decodeStage (some n) =
        Except.error "Audio duration must be between 5-10 seconds" ∧
      transcribe_endpoint extract2 infer2 decodeStage2 (some n) =
        transcribe_endpoint extract infer decodeStage (some n) := by
  have hv : validate_audio (some n) = false := by
    simp [validate_audio, h]
  constructor
  · simp [transcribe_endpoint, hv]
  · simp [transcribe_endpoint, hv]

/-- Witness for C4 at a 3-second waveform (48000 samples) and two distinct
downstream pipelines. -/
theorem transcribe_endpoint_rejects_before_pipeline_witness :
    ¬ (5 ≤ audio_duration 48000 ∧ audio_duration 48000 ≤ 10) ∧
      transcribe_endpoint (fun _ => ()) (fun _ => ()) (fun _ => "text")
          (some 48000) =
        Except.error "Audio duration must be between 5-10 seconds" ∧
      transcribe_endpoint (fun k => k) (fun k : Nat => k + 1) (fun _ => "other")
          (some 48000) =
        transcribe_endpoint (fun _ => ()) (fun _ => ()) (fun _ => "text")
          (some 48000) :=
  ⟨by norm_num [audio_duration],
    transcribe_endpoint_rejects_before_pipeline 48000
      (by norm_num [audio_duration])
      (fun _ => ()) (fun _ => ()) (fun _ => "text")
      (fun k => k) (fun k : Nat => k + 1) (fun _ => "other")⟩

/-! ### Post-processing lemmas -/

theorem dropWhile_fix_head (p : Char → Bool) (a : Char) (t : List Char)
    (h : List.dropWhile p (a :: t) = a :: t) : p a = false := by
  rw [List.dropWhile_cons] at h
  by_cases hp : p a = true
  · rw [if_pos hp] at h
    have hle := (List.dropWhile_suffix (l := t) p).sublist.length_le
    rw [h] at hle
    simp at hle
  · simpa using hp

theorem dropWhile_fix_append (p : Char → Bool) (l l2 : List Char)
    (hl : List.dropWhile p l = l) (h2 : List.dropWhile p l2 = l2) :
    List.dropWhile p (l ++ l2) = l ++ l2 := by
  cases l with
  | nil => simpa using h2
  | cons a t =>
    have ha := dropWhile_fix_head p a t hl
    simp [List.dropWhile_cons, ha]

theorem collapse_head_nonWs (cs : List Char) :
    ∀ p : Bool, collapseWsAux cs false p = [] ∨
      ∃ a t, collapseWsAux cs false p = a :: t ∧ isWs a = false := by
  induction cs with
  | nil => intro p; left; rfl
  | cons c cs ih =>
    intro p
    by_cases hc : isWs c = true
    · simpa [collapseWsAux, hc] using ih true
    · right
      refine ⟨c, collapseWsAux cs true false, ?_, by simpa using hc⟩
      simp [collapseWsAux, hc]

theorem collapse_rev_fix (cs : List Char) :
    ∀ s p : Bool,
      List.dropWhile isWs (collapseWsAux cs s p).reverse =
        (collapseWsAux cs s p).reverse := by
  induction cs with
  | nil => intro s p; rfl
  | cons c cs ih =>
    intro s p
    by_cases hc : isWs c = true
    · simpa [collapseWsAux, hc] using ih s true
    · have hcf : isWs c = false := by simpa using hc
      by_cases hsp : (s && p) = true
      · have hrw : collapseWsAux (c :: cs) s p =
            ' ' :: c :: collapseWsAux cs true false := by
          simp [collapseWsAux, hc, hsp]
        rw [hrw,
          show (' ' :: c :: collapseWsAux cs true false).reverse =
            (collapseWsAux cs true false).reverse ++ [c, ' '] by simp]
        exact dropWhile_fix_append isWs _ [c, ' '] (ih true false)
          (by simp [List.dropWhile_cons, hcf])
      · have hrw : collapseWsAux (c :: cs) s p =
            c :: collapseWsAux cs true false := by
          simp [collapseWsAux, hc, hsp]
        rw [hrw,
          show (c :: collapseWsAux cs true false).reverse =
            (collapseWsAux cs true false).reverse ++ [c] by simp]
        exact dropWhile_fix_append isWs _ [c] (ih true false)
          (by simp [List.dropWhile_cons, hcf])

theorem pyStripL_collapse_fix (cs : List Char) :
    pyStripL (collapseWsAux cs false false) = collapseWsAux cs false false := by
  unfold pyStripL
  have h1 : List.dropWhile isWs (collapseWsAux cs false false) =
      collapseWsAux cs false false := by
    rcases collapse_head_nonWs cs false with h | ⟨a, t, heq, ha⟩
    · rw [h]; rfl
    · rw [heq, List.dropWhile_cons]
      simp [ha]
  rw [h1, collapse_rev_fix cs false false, List.reverse_reverse]

theorem wordsAux_ne_nil (cs : List Char) :
    ∀ (a : Char) (as : List Char), wordsAux cs (a :: as) ≠ [] := by
  induction cs with
  | nil => intro a as; simp [wordsAux]
  | cons c cs ih =>
    intro a as
    by_cases hc : isWs c = true
    · simp [wordsAux, hc]
    · simpa [wordsAux, hc] using ih c (a :: as)

theorem collapse_eq_joined_words (cs : List Char) :
    (∀ p : Bool, collapseWsAux cs false p = joinSepChars (wordsAux cs [])) ∧
      (collapseWsAux cs true true =
        if wordsAux cs [] = [] then []
        else ' ' :: joinSepChars (wordsAux cs [])) ∧
      (∀ (a : Char) (as : List Char),
        joinSepChars (wordsAux cs (a :: as)) =
          (a :: as).reverse ++ collapseWsAux cs true false) := by
  induction cs with
  | nil =>
    refine ⟨?_, ?_, ?_⟩
    · intro p; rfl
    · rfl
    · intro a as; simp [wordsAux, joinSepChars, collapseWsAux]
  | cons c cs ih =>
    obtain ⟨ih1, ih2, ih3⟩ := ih
    by_cases hc : isWs c = true
    · refine ⟨?_, ?_, ?_⟩
      · intro p
        simpa [collapseWsAux, wordsAux, hc] using ih1 true
      · simpa [collapseWsAux, wordsAux, hc] using ih2
      · intro a as
        cases hw : wordsAux cs [] with
        | nil =>
          have h2 := ih2
          rw [hw, if_pos rfl] at h2
          simp [wordsAux, collapseWsAux, hc, hw, joinSepChars, h2]
        | cons w ws2 =>
          have h2 := ih2
          rw [hw, if_neg (by simp)] at h2
          simp [wordsAux, collapseWsAux, hc, hw, joinSepChars, h2]
    · have hcf : isWs c = false := by simpa using hc
      refine ⟨?_, ?_, ?_⟩
      · intro p
        have h3 := ih3 c []
        simp [collapseWsAux, wordsAux, hc, h3]
      · have h3 := ih3 c []
        have hne := wordsAux_ne_nil cs c []
        simp [collapseWsAux, wordsAux, hc, hne, h3]
      · intro a as
        have h3 := ih3 c (a :: as)
        simp [wordsAux, collapseWsAux, hc, h3, List.append_assoc]

/-- C8: post-processing is the spec's whitespace normalisation — collapse
every whitespace run to a single space and trim both ends — followed by the
substitution of the sentinel string exactly when the normalised result is
empty; the sentinel is an ordinary return value, not an error. -/
theorem post_process_text_normalizes (t : String) :
    post_process_text t =
      if collapseWs t = "" then "[No speech detected]" else collapseWs t := by
  have hjw : joinSepChars (wordsAux t.toList []) =
      collapseWsAux t.toList false false :=
    ((collapse_eq_joined_words t.toList).1 false).symm
  show (if pyStripL (joinSepChars (wordsAux t.toList [])) = [] then
      "[No speech detected]"
    else String.mk (pyStripL (joinSepChars (wordsAux t.toList [])))) = _
  rw [hjw, pyStripL_collapse_fix, collapseWs]
  cases h : collapseWsAux t.toList false false with
  | nil => simp [show String.mk ([] : List Char) = "" from rfl]
  | cons d ds =>
    have hne : String.mk (d :: ds) ≠ "" := by
      intro hcontra
      have := congrArg String.data hcontra
      simp at this
    simp [hne]

/-! ### Vocabulary loading lemmas -/

/-- C6 counterexample: a line `" 5"` encodes the empty token at index 5,
but the source strips the line before splitting, leaving the single field
`"5"` with no separator, so the line is skipped: the table is empty, it
does not contain the entry `(5, "")`, and its size is 0, not the
well-formed-line count 1 the claim predicts. -/
theorem load_token_map_empty_token_counterexample :
    parse_token_line " 5" = none ∧
      load_token_map_lines [" 5"] = [] ∧
      (5, "") ∉ load_token_map_lines [" 5"] := by
  refine ⟨rfl, rfl, ?_⟩
  intro h
  rw [show load_token_map_lines [" 5"] = [] from rfl] at h
  simp at h

theorem dictInsert_keys (m : List (Int × String)) (k : Int) (v : String) :
    (dictInsert m k v).map Prod.fst =
      if k ∈ m.map Prod.fst then m.map Prod.fst
      else m.map Prod.fst ++ [k] := by
  have hany : (m.any fun p => p.1 = k) = true ↔ k ∈ m.map Prod.fst := by
    simp [List.any_eq_true, List.mem_map]
  unfold dictInsert
  by_cases hk : k ∈ m.map Prod.fst
  · rw [if_pos hk, if_pos (hany.mpr hk), List.map_map]
    apply List.map_congr_left
    intro p _
    by_cases hp : p.1 = k
    · simp [Function.comp, hp]
    · simp [Function.comp, hp]
  · rw [if_neg hk, if_neg (fun h => hk (hany.mp h))]
    simp

theorem load_fold_keys (lines : List String) :
    ∀ m : List (Int × String), (m.map Prod.fst).Nodup →
      (((lines.foldl (fun m line =>
            match parse_token_line line with
            | some kv => dictInsert m kv.1 kv.2
            | none => m) m).map Prod.fst).Nodup ∧
        ((lines.foldl (fun m line =>
            match parse_token_line line with
            | some kv => dictInsert m kv.1 kv.2
            | none => m) m).map Prod.fst).toFinset =
          (m.map Prod.fst).toFinset ∪ (parsed_keys lines).toFinset) := by
  induction lines with
  | nil =>
    intro m hm
    refine ⟨hm, ?_⟩
    simp [parsed_keys]
  | cons line rest ih =>
    intro m hm
    cases hp : parse_token_line line with
    | none =>
      have h := ih m hm
      simp only [List.foldl_cons, hp]
      simpa [parsed_keys, List.filterMap_cons, hp] using h
    | some kv =>
      have hm2 : ((dictInsert m kv.1 kv.2).map Prod.fst).Nodup := by
        rw [dictInsert_keys]
        by_cases hk : kv.1 ∈ m.map Prod.fst
        · simpa [hk] using hm
        · rw [if_neg hk]
          simp [List.nodup_append, hm, hk]
      have hkeys : ((dictInsert m kv.1 kv.2).map Prod.fst).toFinset =
          (m.map Prod.fst).toFinset ∪ {kv.1} := by
        rw [dictInsert_keys]
        by_cases hk : kv.1 ∈ m.map Prod.fst
        · rw [if_pos hk]
          ext x
          simp only [Finset.mem_union, Finset.mem_singleton, List.mem_toFinset]
          constructor
          · exact fun hx => Or.inl hx
          · rintro (hx | rfl)
            · exact hx
            · exact hk
        · rw [if_neg hk]
          simp [List.toFinset_append]
      have h := ih (dictInsert m kv.1 kv.2) hm2
      simp only [List.foldl_cons, hp]
      refine ⟨h.1, ?_⟩
      rw [h.2, hkeys]
      have hparsed : (parsed_keys (line :: rest)).toFinset =
          {kv.1} ∪ (parsed_keys rest).toFinset := by
        simp [parsed_keys, List.filterMap_cons, hp, Finset.insert_eq]
      rw [hparsed, Finset.union_assoc]

/-- C6 amended: `load_token_map` strips each line, splits it on the first
space character, and parses the remainder as the integer index; an
empty-token line collapses to a single field under the strip and is
skipped, and unparsable lines are skipped without failing the load. The
loaded table has pairwise-distinct indices, its key set is exactly the set
of indices of the successfully parsed lines, and its size is the number of
distinct indices among them. -/
theorem load_token_map_size (lines : List String) :
    ((load_token_map_lines lines).map Prod.fst).Nodup ∧
      ((load_token_map_lines lines).map Prod.fst).toFinset =
        (parsed_keys lines).toFinset ∧
      (load_token_map_lines lines).length =
        (parsed_keys lines).toFinset.card := by
  have h := load_fold_keys lines [] (by simp)
  have hkeys : ((load_token_map_lines lines).map Prod.fst).toFinset =
      (parsed_keys lines).toFinset := by
    unfold load_token_map_lines
    simpa using h.2
  have hnodup : ((load_token_map_lines lines).map Prod.fst).Nodup := by
    unfold load_token_map_lines
    exact h.1
  refine ⟨hnodup, hkeys, ?_⟩
  calc (load_token_map_lines lines).length
      = ((load_token_map_lines lines).map Prod.fst).length := by simp
    _ = ((load_token_map_lines lines).map Prod.fst).toFinset.card :=
        (List.toFinset_card_of_nodup hnodup).symm
    _ = (parsed_keys lines).toFinset.card := by rw [hkeys]
